import Mathlib

/-!
Verification development for the `rainfall` program
(`src/rainfall/src/main.rs`).

The program reads rainfall measurements (one per line) from a stream,
discards noise lines, stops at the literal terminator line "999" or at
end of stream, computes the mean and the counts of measurements in
`[mean - 5, mean)` and `(mean, mean + 5]`, and prints a fixed-format
report.

IEEE-754 binary64 values are modelled exactly: a finite double is a
dyadic rational `± m * 2^e` with canonical (odd or zero) mantissa, plus
the special values `NaN` and `±infinity`.  All arithmetic performed by
the program (`+`, `-`, `/`, comparisons, the `usize as f64` cast) is
implemented with exact integer arithmetic followed by correct
round-to-nearest-even, which is the semantics of the Rust source.
Parsing of a line (`str::parse::<f64>`) follows the grammar documented
for `f64`'s `FromStr` instance, and formatting (`Display` for `f64`)
produces the shortest decimal string that round-trips, as Rust does.
-/

set_option maxRecDepth 20000
set_option exponentiation.threshold 3000

namespace Rainfall

/-! ## Integer helpers -/

/-- Fuel-driven base-2 logarithm on `ℕ` (structural recursion on fuel). -/
def log2fuel : ℕ → ℕ → ℕ
  | 0, _ => 0
  | f + 1, n => if 2 ≤ n then log2fuel f (n / 2) + 1 else 0

/-- `nlog2 n` is `⌊log₂ n⌋` for `n ≥ 1` (and `0` for `n = 0`). -/
def nlog2 (n : ℕ) : ℕ := log2fuel n n

/-- Strip factors of two from a mantissa, moving them into the exponent.
Fuel-driven; callers pass the mantissa itself as fuel. -/
def stripTwos : ℕ → ℕ → ℤ → ℕ × ℤ
  | 0, m, e => (m, e)
  | f + 1, m, e => if m % 2 = 0 ∧ m ≠ 0 then stripTwos f (m / 2) (e + 1) else (m, e)

/-- Canonical form of a dyadic `m * 2^e`: zero is `(0, 0)`, otherwise the
mantissa is made odd. -/
def dCanon (m : ℕ) (e : ℤ) : ℕ × ℤ :=
  if m = 0 then (0, 0) else stripTwos m m e

/-- `dltPos m1 e1 m2 e2` decides `m1 * 2^e1 < m2 * 2^e2` for positive dyadics,
by shifting to a common exponent. -/
def dltPos (m1 : ℕ) (e1 : ℤ) (m2 : ℕ) (e2 : ℤ) : Bool :=
  if 0 ≤ e1 - e2 then decide (m1 * 2 ^ (e1 - e2).toNat < m2)
  else decide (m1 < m2 * 2 ^ (e2 - e1).toNat)

/-! ## The binary64 value model -/

/-- An IEEE-754 binary64 value: `NaN`, a signed infinity, or a signed finite
dyadic magnitude `m * 2^e` (`neg = true` marks the negative sign, so `+0.0`
and `-0.0` are distinct values, as in the hardware format).  Finite values
are kept canonical: `m` is odd, or `m = 0 ∧ e = 0`. -/
inductive F64 where
  | nan : F64
  | inf : Bool → F64
  | finite : Bool → ℕ → ℤ → F64
deriving DecidableEq

/-- Positive zero, the `0.0` literal of the source. -/
def f64zero : F64 := F64.finite false 0 0

/-- The `5.0` literal of the source (`5 = 5 * 2^0`). -/
def f64five : F64 := F64.finite false 5 0

/-- Largest finite binary64 magnitude, `(2^53 - 1) * 2^971`, as a dyadic. -/
def maxMant : ℕ := 2 ^ 53 - 1

/-- Exponent of the largest finite binary64 magnitude. -/
def maxExp : ℤ := 971

/-- `fracLt2 a b k` decides `a / b < 2^k` for a positive fraction `a / b`. -/
def fracLt2 (a b : ℕ) (k : ℤ) : Bool :=
  if 0 ≤ k then decide (a < 2 ^ k.toNat * b) else decide (a * 2 ^ (-k).toNat < b)

/-- `⌊log₂ (a / b)⌋` for `a, b ≥ 1`: estimate from the integer logs, then
correct within the window the estimate is known to hit. -/
def fracLog2 (a b : ℕ) : ℤ :=
  let est : ℤ := (nlog2 a : ℤ) - (nlog2 b : ℤ)
  if fracLt2 a b est then est - 1
  else if fracLt2 a b (est + 1) then est
  else est + 1

/-- Round the positive fraction `a / b` (`a, b ≥ 1`) to the nearest binary64
magnitude, ties to even.  Returns the canonical dyadic, or `none` on overflow
to infinity.  This is exactly IEEE round-to-nearest-even: the result is the
multiple of `2^step` nearest to `a / b`, where `2^step` is the ulp at this
magnitude (with gradual underflow below `2^-1022` and overflow above the
largest finite value). -/
def roundPos (a b : ℕ) : Option (ℕ × ℤ) :=
  let e := fracLog2 a b
  let step : ℤ := max (e - 52) (-1074)
  let a2 := if 0 ≤ step then a else a * 2 ^ (-step).toNat
  let b2 := if 0 ≤ step then b * 2 ^ step.toNat else b
  let fl := a2 / b2
  let rem := a2 % b2
  let m := if b2 < 2 * rem then fl + 1
    else if 2 * rem < b2 then fl
    else if fl % 2 = 0 then fl else fl + 1
  if dltPos maxMant maxExp m step then none else some (dCanon m step)

/-- Round a signed exact fraction to binary64: sign `s`, magnitude `a / b`.
A zero result keeps the sign `s` (IEEE round-to-nearest returns a zero of
the sign of the exact zero / underflowed value). -/
def roundSigned (s : Bool) (a b : ℕ) : F64 :=
  match roundPos a b with
  | none => F64.inf s
  | some (m, e) => F64.finite s m e

/-! ## Comparison and arithmetic on `F64`

These mirror the IEEE-754 semantics used by Rust's `f64` operators:
any comparison with `NaN` is false, `-0.0 == 0.0`, arithmetic is exact
followed by round-to-nearest-even, and `NaN` propagates. -/

/-- IEEE `<` on binary64. -/
def F64.lt : F64 → F64 → Bool
  | .nan, _ => false
  | _, .nan => false
  | .inf s1, .inf s2 => s1 && !s2
  | .inf s1, .finite _ _ _ => s1
  | .finite _ _ _, .inf s2 => !s2
  | .finite s1 m1 e1, .finite s2 m2 e2 =>
    if m1 = 0 then (if m2 = 0 then false else !s2)
    else if m2 = 0 then s1
    else if s1 then (if s2 then dltPos m2 e2 m1 e1 else true)
    else (if s2 then false else dltPos m1 e1 m2 e2)

/-- Whether a value is `NaN`. -/
def F64.isNan : F64 → Bool
  | .nan => true
  | _ => false

/-- Whether a value is finite (neither `NaN` nor an infinity). -/
def F64.isFinite : F64 → Bool
  | .finite _ _ _ => true
  | _ => false

/-- IEEE `<=` on binary64: false if either side is `NaN`, otherwise the
negation of the reversed strict comparison. -/
def F64.le (x y : F64) : Bool :=
  if x.isNan || y.isNan then false else !(F64.lt y x)

/-- Negation (sign flip; `NaN` stays `NaN`). -/
def F64.neg : F64 → F64
  | .nan => .nan
  | .inf s => .inf (!s)
  | .finite s m e => .finite (!s) m e

/-- The signed integer numerator of a finite value scaled to exponent `c`:
`sval s m e c = ± m * 2^(e - c)` (callers guarantee `c ≤ e`). -/
def sval (s : Bool) (m : ℕ) (e c : ℤ) : ℤ :=
  let n : ℤ := (m : ℤ) * 2 ^ (e - c).toNat
  if s then -n else n

/-- Round a signed dyadic value `v * 2^c` (`v : ℤ`) to binary64.
`bothNeg` gives the sign of a zero result (IEEE: `x + y` is `-0.0` only
when both addends are `-0.0`, in round-to-nearest). -/
def roundDyadic (bothNeg : Bool) (v : ℤ) (c : ℤ) : F64 :=
  if v = 0 then F64.finite bothNeg 0 0
  else
    let s := decide (v < 0)
    let a := if 0 ≤ c then v.natAbs * 2 ^ c.toNat else v.natAbs
    let b := if 0 ≤ c then 1 else 2 ^ (-c).toNat
    roundSigned s a b

/-- IEEE addition on binary64 (exact dyadic sum, then rounding). -/
def F64.add : F64 → F64 → F64
  | .nan, _ => .nan
  | _, .nan => .nan
  | .inf s1, .inf s2 => if s1 = s2 then .inf s1 else .nan
  | .inf s1, .finite _ _ _ => .inf s1
  | .finite _ _ _, .inf s2 => .inf s2
  | .finite s1 m1 e1, .finite s2 m2 e2 =>
    let c := min e1 e2
    roundDyadic (s1 && s2) (sval s1 m1 e1 c + sval s2 m2 e2 c) c

/-- IEEE subtraction, which is addition of the negation. -/
def F64.sub (x y : F64) : F64 := F64.add x (F64.neg y)

/-- IEEE division on binary64 (exact quotient, then rounding;
`0/0` and `inf/inf` are `NaN`, division by zero gives a signed infinity). -/
def F64.div : F64 → F64 → F64
  | .nan, _ => .nan
  | _, .nan => .nan
  | .inf _, .inf _ => .nan
  | .inf s1, .finite s2 _ _ => .inf (xor s1 s2)
  | .finite s1 _ _, .inf s2 => .finite (xor s1 s2) 0 0
  | .finite s1 m1 e1, .finite s2 m2 e2 =>
    if m2 = 0 then (if m1 = 0 then .nan else .inf (xor s1 s2))
    else if m1 = 0 then .finite (xor s1 s2) 0 0
    else
      let d := e1 - e2
      let a := if 0 ≤ d then m1 * 2 ^ d.toNat else m1
      let b := if 0 ≤ d then m2 else m2 * 2 ^ (-d).toNat
      roundSigned (xor s1 s2) a b

/-! ## Parsing a line as an `f64` (Rust's `FromStr` for `f64`)

The accepted grammar, per the Rust documentation:
```
Float  ::= Sign? ( 'inf' | 'infinity' | 'nan' | Number )
Number ::= Count '.'? Count? Exp? | '.' Count Exp?
Exp    ::= ('e' | 'E') Sign? Count
Count  ::= Digit+
```
with `inf` / `infinity` / `nan` matched case-insensitively, and the whole
string consumed (no surrounding whitespace, no second token).  The numeric
value produced is the exact decimal value correctly rounded to binary64. -/

/-- ASCII case-insensitive comparison of a character list against a pattern. -/
def lowerEqList : List Char → List Char → Bool
  | [], [] => true
  | c :: cs, d :: ds => (c.toLower = d) && lowerEqList cs ds
  | _, _ => false

/-- Numeric value of a list of decimal digit characters. -/
def digitsToNat (ds : List Char) : ℕ :=
  ds.foldl (fun a c => 10 * a + (c.toNat - 48)) 0

/-- Strip an optional leading sign; `true` means a `-` was present. -/
def splitSign : List Char → Bool × List Char
  | [] => (false, [])
  | c :: t =>
    if c = '+' then (false, t)
    else if c = '-' then (true, t)
    else (false, c :: t)

/-- Number of decimal digits of `n` (`1` for `n = 0`). -/
def numDigits (n : ℕ) : ℕ := (Nat.toDigits 10 n).length

/-- Build the binary64 value of a decimal literal `± mant * 10^dexp`.
Exponents far outside the binary64 range are clamped directly to the signed
infinity or zero they round to; otherwise the exact decimal fraction is
correctly rounded. -/
def mkFloat (neg : Bool) (mant : ℕ) (dexp : ℤ) : F64 :=
  if mant = 0 then F64.finite neg 0 0
  else if 400 < dexp then F64.inf neg
  else if dexp + (numDigits mant : ℤ) < -400 then F64.finite neg 0 0
  else if 0 ≤ dexp then roundSigned neg (mant * 10 ^ dexp.toNat) 1
  else roundSigned neg mant (10 ^ (-dexp).toNat)

/-- Parse the exponent `Count` after an optional exponent sign: all remaining
characters must be digits and there must be at least one. -/
def parseExpPart (negExp : Bool) (cs : List Char) : Option ℤ :=
  match cs.takeWhile Char.isDigit, cs.dropWhile Char.isDigit with
  | [], _ => none
  | _ :: _, _ :: _ => none
  | ds, [] =>
    some (if negExp then -(digitsToNat ds : ℤ) else (digitsToNat ds : ℤ))

/-- Parse an optional exponent suffix (`Exp?`): empty input means exponent
`0`; otherwise an `e` / `E` followed by an optionally signed digit count,
consuming the whole remainder. -/
def parseExpTail : List Char → Option ℤ
  | [] => some (0 : ℤ)
  | e :: r =>
    if e = 'e' ∨ e = 'E' then parseExpPart (splitSign r).1 (splitSign r).2
    else none

/-- Parse a `Number` (mantissa with optional fraction and exponent).
`cs.takeWhile Char.isDigit` is the integer part; if a `.` follows, the
fraction digits follow it, and the optional exponent ends the input. -/
def parseNumber (neg : Bool) (cs : List Char) : Option F64 :=
  match cs.dropWhile Char.isDigit with
  | '.' :: r2 =>
    if cs.takeWhile Char.isDigit = [] ∧ r2.takeWhile Char.isDigit = [] then none
    else
      match parseExpTail (r2.dropWhile Char.isDigit) with
      | some ev =>
        some (mkFloat neg
          (digitsToNat (cs.takeWhile Char.isDigit ++ r2.takeWhile Char.isDigit))
          (ev - ((r2.takeWhile Char.isDigit).length : ℤ)))
      | none => none
  | _ =>
    if cs.takeWhile Char.isDigit = [] then none
    else
      match parseExpTail (cs.dropWhile Char.isDigit) with
      | some ev => some (mkFloat neg (digitsToNat (cs.takeWhile Char.isDigit)) ev)
      | none => none

/-- Parse a whole line, given as its character list: optional sign, then
one of the named special values (ASCII case-insensitive) or a `Number`. -/
def parseChars : List Char → Option F64
  | [] => none
  | c :: cs0 =>
    if lowerEqList (splitSign (c :: cs0)).2 ['i', 'n', 'f'] then
      some (F64.inf (splitSign (c :: cs0)).1)
    else if lowerEqList (splitSign (c :: cs0)).2
        ['i', 'n', 'f', 'i', 'n', 'i', 't', 'y'] then
      some (F64.inf (splitSign (c :: cs0)).1)
    else if lowerEqList (splitSign (c :: cs0)).2 ['n', 'a', 'n'] then
      some F64.nan
    else parseNumber (splitSign (c :: cs0)).1 (splitSign (c :: cs0)).2

/-- Rust's `"...".parse::<f64>()`: `some` value on acceptance, `none` on a
parse error. -/
def parseF64 (s : String) : Option F64 := parseChars s.data

/-! ## The Measurement Reader (`read_measurements`)

The input stream is modelled as the sequence of results produced by the
`BufRead::lines` iterator: each item is either a successfully read line
(`Except.ok`) or a read failure (`Except.error`).  The Rust loop
`while let Some(Ok(line)) = lines.next()` exits as soon as the iterator is
exhausted *or* yields an `Err`, so an error item behaves like end of
stream. -/

/-- The value a line contributes if it is kept: the parsed value when
parsing succeeds and the `f >= 0.0` filter passes, otherwise `none`. -/
def acceptedValue (line : String) : Option F64 :=
  match parseF64 line with
  | some f => if F64.le f64zero f then some f else none
  | none => none

/-- `read_measurements` from the source: iterate the lines, stop at a read
failure or at the literal line `"999"`, parse each line as `f64`, and keep
the values satisfying `f >= 0.0`. -/
def read_measurements : List (Except Unit String) → List F64
  | [] => []
  | Except.error _ :: _ => []
  | Except.ok line :: rest =>
    if line = "999" then []
    else
      match parseF64 line with
      | some f => if F64.le f64zero f then f :: read_measurements rest
                  else read_measurements rest
      | none => read_measurements rest

/-! ## The Statistics Calculator (`calculate_results`, `mean`, `sum`) -/

/-- The `Results` record of the source. -/
structure Results where
  mean : F64
  above : ℕ
  below : ℕ
deriving DecidableEq

/-- `sum` from the source: left fold of `f64` addition over the samples,
starting from `0.0`. -/
def sum (samples : List F64) : F64 := samples.foldl F64.add f64zero

/-- The `samples.len() as f64` cast (exact for lengths below `2^53`). -/
def lenF64 (samples : List F64) : F64 :=
  if samples.length = 0 then f64zero else roundSigned false samples.length 1

/-- `mean` from the source: `sum(samples) / (samples.len() as f64)`. -/
def mean (samples : List F64) : F64 := F64.div (sum samples) (lenF64 samples)

/-- `calculate_results` from the source: the mean, the count of samples in
`[m - 5, m)` and the count in `(m, m + 5]`, all with `f64` comparisons. -/
def calculate_results (fs : List F64) : Results :=
  let m := mean fs
  let b := (fs.filter fun x => F64.le (F64.sub m f64five) x && F64.lt x m).length
  let a := (fs.filter fun x => F64.lt m x && F64.le x (F64.add m f64five)).length
  { mean := m, above := a, below := b }

/-! ## The Report Formatter (`write_output`)

Rust's `Display` for `f64` prints `NaN` / `inf` / `-inf` for the special
values and otherwise the shortest decimal string that parses back to the
same value (closest to it among equals), always in plain positional
notation for `{}`.  The shortest digit string is found by trying 1, 2, …
significant digits and testing round-trip with the exact rounding
function. -/

/-- `fracLt10 a b k` decides `a / b < 10^k` for a positive fraction. -/
def fracLt10 (a b : ℕ) (k : ℤ) : Bool :=
  if 0 ≤ k then decide (a < 10 ^ k.toNat * b) else decide (a * 10 ^ (-k).toNat < b)

/-- `⌊log₁₀ (a / b)⌋` for a positive fraction: a linear estimate from
`⌊log₂⌋`, corrected over a window that certainly contains the answer. -/
def fracLog10 (a b : ℕ) : ℤ :=
  let est : ℤ := fracLog2 a b * 3 / 10
  (List.range 9).foldl
    (fun acc i =>
      let c := est - 4 + (i : ℤ)
      if fracLt10 a b c then acc else c)
    (est - 5)

/-- The positive fraction representing the dyadic `m * 2^e`. -/
def dFrac (m : ℕ) (e : ℤ) : ℕ × ℕ :=
  if 0 ≤ e then (m * 2 ^ e.toNat, 1) else (m, 2 ^ (-e).toNat)

/-- The canonical binary64 magnitude of the decimal `k * 10^ex` (`none` on
overflow), used for round-trip tests. -/
def roundDec (k : ℕ) (ex : ℤ) : Option (ℕ × ℤ) :=
  if k = 0 then some (0, 0)
  else if 0 ≤ ex then roundPos (k * 10 ^ ex.toNat) 1
  else roundPos k (10 ^ (-ex).toNat)

/-- Try to represent the positive magnitude `m * 2^e` with `n` significant
decimal digits: the nearest `n`-digit decimals are tested for round-trip,
closest candidate first.  Returns the digit mantissa on success. -/
def tryDigits (m : ℕ) (e : ℤ) (d10 : ℤ) (n : ℕ) : Option ℕ :=
  let ex := d10 - (n : ℤ) + 1
  let fr := dFrac m e
  let a2 := if 0 ≤ ex then fr.1 else fr.1 * 10 ^ (-ex).toNat
  let b2 := if 0 ≤ ex then fr.2 * 10 ^ ex.toNat else fr.2
  let fl := a2 / b2
  let rem := a2 % b2
  let cands : List ℕ :=
    if b2 < 2 * rem then [fl + 1, fl]
    else if 2 * rem < b2 then [fl, fl + 1]
    else if fl % 2 = 0 then [fl, fl + 1] else [fl + 1, fl]
  cands.findSome? fun k =>
    if k = 0 then none
    else if roundDec k ex = some (m, e) then some k else none

/-- Shortest round-tripping decimal for the positive magnitude `m * 2^e`:
the digit mantissa and its decimal exponent. 17 significant digits always
suffice for binary64. -/
def shortestRep (m : ℕ) (e : ℤ) : ℕ × ℤ :=
  let fr := dFrac m e
  let d10 := fracLog10 fr.1 fr.2
  match (List.range 17).findSome? (fun i =>
      match tryDigits m e d10 (i + 1) with
      | some k => some (k, d10 - ((i : ℤ) + 1) + 1)
      | none => none) with
  | some r => r
  | none => (m, 0)

/-- Remove trailing decimal zeros from a digit mantissa, shifting the
exponent (fuel-driven). -/
def stripTens : ℕ → ℕ → ℤ → ℕ × ℤ
  | 0, k, ex => (k, ex)
  | f + 1, k, ex => if k % 10 = 0 ∧ k ≠ 0 then stripTens f (k / 10) (ex + 1) else (k, ex)

/-- Render `± digits * 10^ex` in plain positional notation, as Rust's
`Display` does (no exponent form, no trailing `.0` for integral values). -/
def renderDecimal (s : Bool) (k : ℕ) (ex : ℤ) : String :=
  let ds := Nat.repr k
  let sgn := if s then "-" else ""
  if 0 ≤ ex then sgn ++ ds ++ String.mk (List.replicate ex.toNat '0')
  else
    let fr := (-ex).toNat
    if fr < ds.length then
      sgn ++ ds.take (ds.length - fr) ++ "." ++ ds.drop (ds.length - fr)
    else
      sgn ++ "0." ++ String.mk (List.replicate (fr - ds.length) '0') ++ ds

/-- Rust's `Display` (`"{}"`) for an `f64` value. -/
def fmtF64 : F64 → String
  | .nan => "NaN"
  | .inf s => if s then "-inf" else "inf"
  | .finite s m e =>
    if m = 0 then (if s then "-0" else "0")
    else
      let r := shortestRep m e
      let r2 := stripTens 40 r.1 r.2
      renderDecimal s r2.1 r2.2

/-- `write_output` from the source, as the string written to the stream:
the explanatory line when the mean is `NaN`, otherwise the three-line
report. -/
def write_output (r : Results) : String :=
  if F64.isNan r.mean then "No measurements provided.\n"
  else
    "Mean rainfall: " ++ fmtF64 r.mean ++ " cm\n" ++
    "Below count:   " ++ Nat.repr r.below ++ "\n" ++
    "Above count:   " ++ Nat.repr r.above ++ "\n"

/-! ## Basic lemmas about the embedding -/

/-- One accepted-or-discarded step of the reader on a successfully read
line, phrased through `acceptedValue`. -/
theorem read_ok_cons (l : String) (rest : List (Except Unit String)) :
    read_measurements (Except.ok l :: rest) =
      if l = "999" then []
      else
        match acceptedValue l with
        | some f => f :: read_measurements rest
        | none => read_measurements rest := by
  by_cases h : l = "999"
  · simp [read_measurements, h]
  · simp only [read_measurements, h, if_false, acceptedValue]
    cases hp : parseF64 l with
    | none => rfl
    | some f =>
      by_cases hf : F64.le f64zero f = true
      · simp [hf]
      · simp [Bool.not_eq_true] at hf
        simp [hf]

/-- Strict comparison of positive dyadics is irreflexive. -/
theorem dltPos_irrefl (m : ℕ) (e : ℤ) : dltPos m e m e = false := by
  simp [dltPos]

/-- Strict comparison of positive dyadics is asymmetric. -/
theorem dltPos_asymm (m1 : ℕ) (e1 : ℤ) (m2 : ℕ) (e2 : ℤ)
    (h1 : dltPos m1 e1 m2 e2 = true) (h2 : dltPos m2 e2 m1 e1 = true) : False := by
  unfold dltPos at h1 h2
  by_cases hd : 0 ≤ e1 - e2
  · by_cases hd' : 0 ≤ e2 - e1
    · have hz : (e1 - e2).toNat = 0 := by omega
      have hz' : (e2 - e1).toNat = 0 := by omega
      rw [hz, if_pos hd] at h1
      rw [hz', if_pos hd'] at h2
      simp at h1 h2
      omega
    · rw [if_pos hd] at h1
      rw [if_neg hd'] at h2
      simp at h1 h2
      omega
  · by_cases hd' : 0 ≤ e2 - e1
    · rw [if_neg hd] at h1
      rw [if_pos hd'] at h2
      simp at h1 h2
      omega
    · omega

/-- IEEE strict comparison is irreflexive. -/
theorem F64.lt_irrefl (x : F64) : F64.lt x x = false := by
  cases x with
  | nan => rfl
  | inf s => cases s <;> rfl
  | finite s m e =>
    by_cases hm : m = 0
    · simp [F64.lt, hm]
    · cases s <;> simp [F64.lt, hm, dltPos_irrefl]

/-- IEEE strict comparison is asymmetric. -/
theorem F64.lt_asymm (x y : F64) (h1 : F64.lt x y = true) (h2 : F64.lt y x = true) :
    False := by
  cases x with
  | nan => simp [F64.lt] at h1
  | inf s1 =>
    cases y with
    | nan => simp [F64.lt] at h1
    | inf s2 =>
      simp [F64.lt] at h1 h2
      simp [h1.1, h1.2] at h2
    | finite s2 m2 e2 =>
      simp [F64.lt] at h1 h2
      simp [h1] at h2
  | finite s1 m1 e1 =>
    cases y with
    | nan => simp [F64.lt] at h1
    | inf s2 =>
      simp [F64.lt] at h1 h2
      simp [h1] at h2
    | finite s2 m2 e2 =>
      by_cases hm1 : m1 = 0 <;> by_cases hm2 : m2 = 0 <;>
        simp [F64.lt, hm1, hm2] at h1 h2
      · simp [h1] at h2
      · simp [h1] at h2
      · cases s1 <;> cases s2 <;> simp at h1 h2 <;>
          exact dltPos_asymm _ _ _ _ h1 h2

/-- If a value is strictly below `+0.0` then the reader's `f >= 0.0` test
fails on it. -/
theorem le_zero_of_lt_zero (f : F64) (h : F64.lt f f64zero = true) :
    F64.le f64zero f = false := by
  cases f with
  | nan => simp [F64.lt, f64zero] at h
  | inf s =>
    simp [F64.lt, f64zero] at h
    simp [F64.le, F64.isNan, F64.lt, f64zero, h]
  | finite s m e =>
    simp [F64.le, F64.isNan, F64.lt, f64zero] at *
    by_cases hm : m = 0
    · simp [hm] at h
    · simp [hm] at h ⊢
      exact h

/-- Elements that a `takeWhile`-style scan drops are still in the
`dropWhile` remainder. -/
theorem mem_dropWhile_of_neg {α : Type} (p : α → Bool) (c : α) :
    ∀ l : List α, c ∈ l → p c = false → c ∈ l.dropWhile p := by
  intro l
  induction l with
  | nil => intro h; cases h
  | cons a t ih =>
    intro hc hp
    by_cases ha : p a = true
    · rw [List.dropWhile_cons_of_pos ha]
      rcases List.mem_cons.mp hc with rfl | hmem
      · rw [hp] at ha; cases ha
      · exact ih hmem hp
    · rw [List.dropWhile_cons_of_neg ha]
      exact hc

/-- The whitespace characters, concretely. -/
theorem ws_cases (c : Char) (h : c.isWhitespace = true) :
    c = ' ' ∨ c = '\t' ∨ c = '\r' ∨ c = '\n' := by
  simp [Char.isWhitespace] at h
  tauto

/-- Whitespace characters are not digits and are none of the characters the
numeric grammar consumes. -/
theorem ws_notGrammar (c : Char) (h : c.isWhitespace = true) :
    c.isDigit = false ∧ c ≠ '.' ∧ c ≠ '+' ∧ c ≠ '-' ∧ c ≠ 'e' ∧ c ≠ 'E' := by
  rcases ws_cases c h with rfl | rfl | rfl | rfl <;> decide

/-- Characters of a string matched case-insensitively land (lowered) in the
pattern. -/
theorem lowerEq_mem (c : Char) :
    ∀ (cs ds : List Char), lowerEqList cs ds = true → c ∈ cs → c.toLower ∈ ds := by
  intro cs
  induction cs with
  | nil => intro ds _ hc; cases hc
  | cons a t ih =>
    intro ds h hc
    cases ds with
    | nil => simp [lowerEqList] at h
    | cons d ds' =>
      simp [lowerEqList] at h
      rcases List.mem_cons.mp hc with rfl | hmem
      · exact List.mem_cons.mpr (Or.inl h.1)
      · exact List.mem_cons.mpr (Or.inr (ih ds' h.2 hmem))

/-- The exponent digits parser rejects any remainder containing a
non-digit. -/
theorem parseExpPart_none (b : Bool) (cs : List Char) (c : Char)
    (hc : c ∈ cs) (hd : c.isDigit = false) : parseExpPart b cs = none := by
  have h3 : c ∈ cs.dropWhile Char.isDigit := mem_dropWhile_of_neg _ _ _ hc hd
  unfold parseExpPart
  cases hdw : cs.dropWhile Char.isDigit with
  | nil => rw [hdw] at h3; cases h3
  | cons a t => cases htw : cs.takeWhile Char.isDigit <;> rfl

/-- Characters other than a sign survive the optional-sign split. -/
theorem mem_splitSign (l : List Char) (c : Char) (hc : c ∈ l)
    (h1 : c ≠ '+') (h2 : c ≠ '-') : c ∈ (splitSign l).2 := by
  cases l with
  | nil => cases hc
  | cons a t =>
    simp only [splitSign]
    by_cases ha1 : a = '+'
    · rw [if_pos ha1]
      rcases List.mem_cons.mp hc with rfl | hm
      · exact absurd ha1 h1
      · exact hm
    · rw [if_neg ha1]
      by_cases ha2 : a = '-'
      · rw [if_pos ha2]
        rcases List.mem_cons.mp hc with rfl | hm
        · exact absurd ha2 h2
        · exact hm
      · rw [if_neg ha2]
        exact hc

/-- The exponent suffix parser rejects any remainder containing
whitespace. -/
theorem parseExpTail_none (cs : List Char) (c : Char)
    (hc : c ∈ cs) (hw : c.isWhitespace = true) : parseExpTail cs = none := by
  obtain ⟨hdig, _, hplus, hminus, he, hE⟩ := ws_notGrammar c hw
  cases cs with
  | nil => cases hc
  | cons e r =>
    simp only [parseExpTail]
    rcases List.mem_cons.mp hc with rfl | hmem
    · rw [if_neg (by push_neg; exact ⟨he, hE⟩)]
    · by_cases hee : e = 'e' ∨ e = 'E'
      · rw [if_pos hee]
        exact parseExpPart_none _ _ c (mem_splitSign r c hmem hplus hminus) hdig
      · rw [if_neg hee]

/-- The `Number` parser rejects any input containing whitespace. -/
theorem parseNumber_none (neg : Bool) (cs : List Char) (c : Char)
    (hc : c ∈ cs) (hw : c.isWhitespace = true) : parseNumber neg cs = none := by
  obtain ⟨hdig, hdot, _, _, _, _⟩ := ws_notGrammar c hw
  have h1 : c ∈ cs.dropWhile Char.isDigit := mem_dropWhile_of_neg _ _ _ hc hdig
  unfold parseNumber
  split
  · rename_i r2 heq
    rw [heq] at h1
    have h2 : c ∈ r2 := by
      rcases List.mem_cons.mp h1 with rfl | h2
      · exact absurd rfl hdot
      · exact h2
    have h3 : c ∈ r2.dropWhile Char.isDigit := mem_dropWhile_of_neg _ _ _ h2 hdig
    rw [parseExpTail_none _ c h3 hw]
    split <;> rfl
  · rw [parseExpTail_none _ c h1 hw]
    split <;> rfl

/-- `parse::<f64>()` rejects any line containing a whitespace character;
in particular lines with leading or trailing whitespace and multi-token
lines are rejected. -/
theorem parseF64_none_of_ws (s : String) (c : Char)
    (hc : c ∈ s.data) (hw : c.isWhitespace = true) : parseF64 s = none := by
  obtain ⟨_, _, hplus, hminus, _, _⟩ := ws_notGrammar c hw
  have hlow : c.toLower = c := by
    rcases ws_cases c hw with rfl | rfl | rfl | rfl <;> decide
  unfold parseF64
  cases hd : s.data with
  | nil => rfl
  | cons c0 cs0 =>
    rw [hd] at hc
    have hcs : c ∈ (splitSign (c0 :: cs0)).2 := mem_splitSign _ c hc hplus hminus
    simp only [parseChars]
    by_cases hi1 : lowerEqList (splitSign (c0 :: cs0)).2 ['i', 'n', 'f'] = true
    · have := lowerEq_mem c _ _ hi1 hcs
      rw [hlow] at this
      rcases ws_cases c hw with rfl | rfl | rfl | rfl <;> simp at this
    · rw [if_neg (by simp [hi1])]
      by_cases hi2 : lowerEqList (splitSign (c0 :: cs0)).2
          ['i', 'n', 'f', 'i', 'n', 'i', 't', 'y'] = true
      · have := lowerEq_mem c _ _ hi2 hcs
        rw [hlow] at this
        rcases ws_cases c hw with rfl | rfl | rfl | rfl <;> simp at this
      · rw [if_neg (by simp [hi2])]
        by_cases hi3 : lowerEqList (splitSign (c0 :: cs0)).2 ['n', 'a', 'n'] = true
        · have := lowerEq_mem c _ _ hi3 hcs
          rw [hlow] at this
          rcases ws_cases c hw with rfl | rfl | rfl | rfl <;> simp at this
        · rw [if_neg (by simp [hi3])]
          exact parseNumber_none _ _ c hcs hw

/-- Two filters with incompatible predicates keep at most `length` elements
in total. -/
theorem length_filter_add_le {α : Type} (p q : α → Bool)
    (h : ∀ x, p x = true → q x = true → False) :
    ∀ xs : List α, (xs.filter p).length + (xs.filter q).length ≤ xs.length := by
  intro xs
  induction xs with
  | nil => simp
  | cons x t ih =>
    by_cases hp : p x = true
    · have hq : q x = false := by
        cases hqx : q x
        · rfl
        · exact absurd (h x hp hqx) not_false
      simp only [List.filter_cons, hp, hq, if_true, if_false, List.length_cons,
        List.length, Bool.false_eq_true]
      omega
    · rw [Bool.not_eq_true] at hp
      by_cases hq : q x = true
      · simp only [List.filter_cons, hp, hq, List.length_cons, Bool.false_eq_true,
          if_false, if_true]
        omega
      · rw [Bool.not_eq_true] at hq
        simp only [List.filter_cons, hp, hq, Bool.false_eq_true, if_false,
          List.length_cons]
        omega

/-- With an element satisfying neither predicate, the two incompatible
filters keep strictly fewer elements than `length`. -/
theorem length_filter_add_lt {α : Type} (p q : α → Bool)
    (h : ∀ x, p x = true → q x = true → False) (xs : List α) (y : α)
    (hy : y ∈ xs) (hpy : p y = false) (hqy : q y = false) :
    (xs.filter p).length + (xs.filter q).length < xs.length := by
  induction xs with
  | nil => cases hy
  | cons x t ih =>
    rcases List.mem_cons.mp hy with rfl | hmem
    · simp only [List.filter_cons, hpy, hqy, Bool.false_eq_true, if_false,
        List.length_cons]
      have := length_filter_add_le p q h t
      omega
    · have hle := ih hmem
      by_cases hp : p x = true
      · have hq : q x = false := by
          cases hqx : q x
          · rfl
          · exact absurd (h x hp hqx) not_false
        simp only [List.filter_cons, hp, hq, if_true, if_false, List.length_cons,
          Bool.false_eq_true]
        omega
      · rw [Bool.not_eq_true] at hp
        by_cases hq : q x = true
        · simp only [List.filter_cons, hp, hq, List.length_cons, Bool.false_eq_true,
            if_false, if_true]
          omega
        · rw [Bool.not_eq_true] at hq
          simp only [List.filter_cons, hp, hq, Bool.false_eq_true, if_false,
            List.length_cons]
          omega

/-! ## The claims -/

/-- Claim C1: for every input stream whose lines (before any terminator) are
all valid single-token non-negative numeric literals, `read_measurements`
returns exactly the sequence of their parsed `f64` values in input order;
and any line with leading/trailing whitespace, multiple tokens (both are
lines containing a whitespace character, rejected by the grammar),
non-numeric text (any line with `acceptedValue` `none`), or a negative
value is discarded without changing which other lines are accepted or
their order. -/
theorem C1_reader_valid_in_order :
    (∀ (ls : List String) (vs : List F64),
        (∀ l ∈ ls, l ≠ "999") →
        ls.map acceptedValue = vs.map some →
        read_measurements (ls.map Except.ok) = vs)
  ∧ (∀ (pre post : List String) (bad : String),
        bad ≠ "999" → acceptedValue bad = none →
        read_measurements ((pre ++ bad :: post).map Except.ok) =
          read_measurements ((pre ++ post).map Except.ok))
  ∧ (∀ (l : String) (c : Char), c ∈ l.data → c.isWhitespace = true →
        parseF64 l = none)
  ∧ (∀ (l : String) (f : F64), parseF64 l = some f →
        F64.lt f f64zero = true → acceptedValue l = none) := by
  refine ⟨?_, ?_, ?_, ?_⟩
  · intro ls
    induction ls with
    | nil =>
      intro vs _ h2
      cases vs with
      | nil => rfl
      | cons v vt => simp at h2
    | cons l t ih =>
      intro vs h1 h2
      cases vs with
      | nil => simp at h2
      | cons v vt =>
        simp only [List.map_cons, List.cons.injEq] at h2
        rw [List.map_cons, read_ok_cons, if_neg (h1 l (List.mem_cons_self l t)), h2.1]
        exact congrArg (v :: ·) (ih vt (fun x hx => h1 x (List.mem_cons_of_mem l hx)) h2.2)
  · intro pre post bad hbad hnone
    induction pre with
    | nil =>
      simp only [List.nil_append, List.map_cons, read_ok_cons, if_neg hbad, hnone]
    | cons a t ih =>
      simp only [List.cons_append, List.map_cons]
      rw [read_ok_cons, read_ok_cons]
      by_cases ha : a = "999"
      · rw [if_pos ha, if_pos ha]
      · rw [if_neg ha, if_neg ha]
        cases acceptedValue a
        · exact ih
        · exact congrArg _ ih
  · intro l c hc hw
    exact parseF64_none_of_ws l c hc hw
  · intro l f hp hlt
    simp [acceptedValue, hp, le_zero_of_lt_zero f hlt]

/-- Witness for C1 at a concrete input: the stream `3`, `4` is read as the
two parsed values in order. -/
theorem C1_witness :
    read_measurements (["3", "4"].map Except.ok) =
      [F64.finite false 3 0, F64.finite false 1 2] :=
  C1_reader_valid_in_order.1 ["3", "4"] [F64.finite false 3 0, F64.finite false 1 2]
    (by decide) (by decide)

/-- Claim C2: `read_measurements` stops reading exactly at a line whose text
is the literal `"999"` (that line and all later lines are discarded); a
line that merely parses to the number `999.0` in another spelling, such as
`"9.99e2"`, does not terminate reading and is appended as an ordinary
measurement; and end of stream without a terminator terminates reading
normally. -/
theorem C2_literal_terminator :
    (∀ (pre : List String) (post : List (Except Unit String)),
        read_measurements (pre.map Except.ok ++ Except.ok "999" :: post) =
          read_measurements (pre.map Except.ok))
  ∧ (∀ post : List (Except Unit String),
        read_measurements (Except.ok "9.99e2" :: post) =
          F64.finite false 999 0 :: read_measurements post)
  ∧ read_measurements [] = [] := by
  refine ⟨?_, ?_, rfl⟩
  · intro pre post
    induction pre with
    | nil =>
      rw [List.map_nil, List.nil_append, read_ok_cons, if_pos rfl]
      rfl
    | cons a t ih =>
      simp only [List.cons_append, List.map_cons]
      rw [read_ok_cons, read_ok_cons]
      by_cases ha : a = "999"
      · rw [if_pos ha, if_pos ha]
      · rw [if_neg ha, if_neg ha]
        cases acceptedValue a
        · exact ih
        · exact congrArg _ ih
  · intro post
    rw [read_ok_cons, if_neg (by decide),
      show acceptedValue "9.99e2" = some (F64.finite false 999 0) from by decide]

/-- Claim C3: `calculate_results` counts as below-count exactly the elements
in `[mean - 5, mean)` and as above-count exactly the elements in
`(mean, mean + 5]` (interval ends computed with `f64` arithmetic and
compared with `f64` comparisons, as in the source); an element exactly
equal to the mean satisfies neither strict comparison, so it is counted in
neither band. -/
theorem C3_band_membership (fs : List F64) :
    (calculate_results fs).below =
      (fs.filter fun x =>
        F64.le (F64.sub (mean fs) f64five) x && F64.lt x (mean fs)).length
  ∧ (calculate_results fs).above =
      (fs.filter fun x =>
        F64.lt (mean fs) x && F64.le x (F64.add (mean fs) f64five)).length
  ∧ ∀ x ∈ fs, x = mean fs →
      F64.lt x (mean fs) = false ∧ F64.lt (mean fs) x = false := by
  refine ⟨rfl, rfl, ?_⟩
  intro x _ hx
  rw [hx]
  exact ⟨F64.lt_irrefl _, F64.lt_irrefl _⟩

/-- Witness for C3 at a concrete input: in `[0.0]` the (only) measurement
equals the mean and is strictly on neither side of it. -/
theorem C3_witness :
    F64.lt f64zero (mean [f64zero]) = false ∧
      F64.lt (mean [f64zero]) f64zero = false :=
  (C3_band_membership [f64zero]).2.2 f64zero (by simp) (by decide)

/-- Claim C4: on the empty measurement sequence, `calculate_results`
produces a `NaN` mean and zero for both counts. -/
theorem C4_empty_results :
    F64.isNan (calculate_results []).mean = true
  ∧ (calculate_results []).below = 0
  ∧ (calculate_results []).above = 0 := by
  exact ⟨by decide, rfl, rfl⟩

/-- Claim C5: `write_output` on a `NaN` mean emits exactly the single line
`No measurements provided.` with its line break and no count lines; on any
defined mean it emits exactly the three-line fixed layout, and for
`Results { mean := 5.0, above := 2, below := 3 }` exactly the expected
string. -/
theorem C5_formatter_layout :
    (∀ a b : ℕ,
        write_output { mean := F64.nan, above := a, below := b } =
          "No measurements provided.\n")
  ∧ (∀ r : Results, F64.isNan r.mean = false →
        write_output r =
          "Mean rainfall: " ++ fmtF64 r.mean ++ " cm\n" ++
          "Below count:   " ++ Nat.repr r.below ++ "\n" ++
          "Above count:   " ++ Nat.repr r.above ++ "\n")
  ∧ write_output { mean := F64.finite false 5 0, above := 2, below := 3 } =
      "Mean rainfall: 5 cm\nBelow count:   3\nAbove count:   2\n" := by
  refine ⟨fun a b => rfl, ?_, by decide⟩
  intro r h
  simp [write_output, h]

/-- Witness for C5 at a concrete defined mean. -/
theorem C5_witness :
    write_output { mean := F64.finite false 1 1, above := 1, below := 1 } =
      "Mean rainfall: 2 cm\nBelow count:   1\nAbove count:   1\n" := by
  rw [C5_formatter_layout.2.1
    { mean := F64.finite false 1 1, above := 1, below := 1 } (by decide)]
  decide

/-- Claim C6: below-count + above-count never exceeds the number of
measurements, and the inequality is strict whenever some measurement equals
the mean exactly. -/
theorem C6_band_counts_bounded (fs : List F64) :
    (calculate_results fs).below + (calculate_results fs).above ≤ fs.length
  ∧ ∀ x ∈ fs, x = mean fs →
      (calculate_results fs).below + (calculate_results fs).above < fs.length := by
  have hdisj : ∀ y : F64,
      (F64.le (F64.sub (mean fs) f64five) y && F64.lt y (mean fs)) = true →
      (F64.lt (mean fs) y && F64.le y (F64.add (mean fs) f64five)) = true →
      False := by
    intro y h1 h2
    rw [Bool.and_eq_true] at h1 h2
    exact F64.lt_asymm _ _ h1.2 h2.1
  constructor
  · exact length_filter_add_le _ _ hdisj fs
  · intro x hx hxm
    apply length_filter_add_lt _ _ hdisj fs x hx
    · rw [hxm, F64.lt_irrefl, Bool.and_false]
    · rw [hxm, F64.lt_irrefl, Bool.false_and]

/-- Witness for C6 at a concrete input: in `[0.0]` the measurement equals
the mean, so the two band counts sum to strictly less than the length. -/
theorem C6_witness :
    (calculate_results [f64zero]).below + (calculate_results [f64zero]).above <
      ([f64zero] : List F64).length :=
  (C6_band_counts_bounded [f64zero]).2 f64zero (by simp) (by decide)

/-- Counterexample to claim C7: a failed line read is NOT propagated as a
fatal error — the `while let Some(Ok(line))` loop exits on the `Err` item
and `read_measurements` returns the measurements gathered so far (here the
parsed `3`, with the readable line `4` after the failure never
processed). -/
theorem C7_counterexample :
    read_measurements [Except.ok "3", Except.error (), Except.ok "4"] =
      [F64.finite false 3 0] := by
  decide

/-- Amended claim C7: a failure to read a line terminates the reading loop
as if the stream had ended — the error is swallowed, the measurements
gathered before it are returned, and no later line is examined. -/
theorem C7_amended_error_is_eof (pre : List String) (e : Unit)
    (post : List (Except Unit String)) :
    read_measurements (pre.map Except.ok ++ Except.error e :: post) =
      read_measurements (pre.map Except.ok) := by
  induction pre with
  | nil => rfl
  | cons a t ih =>
    simp only [List.cons_append, List.map_cons]
    rw [read_ok_cons, read_ok_cons]
    by_cases ha : a = "999"
    · rw [if_pos ha, if_pos ha]
    · rw [if_neg ha, if_neg ha]
      cases acceptedValue a
      · exact ih
      · exact congrArg _ ih

/-- Counterexample to claim C8: the line `inf` parses (under `f64`'s
`FromStr`) to positive infinity, which satisfies the `f >= 0.0` filter and
is appended to the measurement sequence, so a non-finite value can appear
in the output. -/
theorem C8_counterexample :
    read_measurements [Except.ok "inf"] = [F64.inf false]
  ∧ F64.isFinite (F64.inf false) = false := by
  exact ⟨by decide, rfl⟩

/-- Amended claim C8: every element of the output satisfies the `f >= 0.0`
filter under `f64` comparison — in particular a `NaN` line is discarded —
but the filter does not exclude positive infinity: an `inf` or `infinity`
line appends a non-finite value. -/
theorem C8_amended_nonneg_filter :
    (∀ (lines : List (Except Unit String)) (f : F64),
        f ∈ read_measurements lines → F64.le f64zero f = true)
  ∧ read_measurements [Except.ok "NaN"] = []
  ∧ read_measurements [Except.ok "infinity"] = [F64.inf false] := by
  refine ⟨?_, by decide, by decide⟩
  intro lines
  induction lines with
  | nil => intro f hf; cases hf
  | cons x rest ih =>
    intro f hf
    cases x with
    | error e =>
      rw [show read_measurements (Except.error e :: rest) = [] from rfl] at hf
      cases hf
    | ok l =>
      rw [read_ok_cons] at hf
      by_cases hl : l = "999"
      · rw [if_pos hl] at hf
        cases hf
      · rw [if_neg hl] at hf
        cases hv : acceptedValue l with
        | none =>
          rw [hv] at hf
          exact ih f hf
        | some v =>
          rw [hv] at hf
          rcases List.mem_cons.mp hf with rfl | hmem
          · unfold acceptedValue at hv
            cases hp : parseF64 l with
            | none => rw [hp] at hv; cases hv
            | some g =>
              rw [hp] at hv
              have hv' : (if F64.le f64zero g = true then some g else none) = some f := hv
              by_cases hg : F64.le f64zero g = true
              · rw [if_pos hg] at hv'
                cases hv'
                exact hg
              · rw [if_neg hg] at hv'
                cases hv'
          · exact ih f hmem

/-- Witness for the amended C8 at a concrete input: the value read from the
line `3` passes the non-negativity filter. -/
theorem C8_witness : F64.le f64zero (F64.finite false 3 0) = true :=
  C8_amended_nonneg_filter.1 [Except.ok "3"] (F64.finite false 3 0) (by decide)

/-- Claim C9: for the input lines `12.5`, `18`, `7`, `0`, `4` the pipeline
reads the five values, computes mean equal to the `f64` value `8.3` (the
very value `"8.3".parse::<f64>()` yields), below-count `2` and above-count
`1`, and renders the mean as the shortest round-trip decimal `8.3`, giving
the exact three-line report. -/
theorem C9_end_to_end :
    read_measurements (["12.5", "18", "7", "0", "4"].map Except.ok) =
      [F64.finite false 25 (-1), F64.finite false 9 1, F64.finite false 7 0,
        f64zero, F64.finite false 1 2]
  ∧ parseF64 "8.3" =
      some (calculate_results (read_measurements
        (["12.5", "18", "7", "0", "4"].map Except.ok))).mean
  ∧ (calculate_results (read_measurements
        (["12.5", "18", "7", "0", "4"].map Except.ok))).below = 2
  ∧ (calculate_results (read_measurements
        (["12.5", "18", "7", "0", "4"].map Except.ok))).above = 1
  ∧ write_output (calculate_results (read_measurements
        (["12.5", "18", "7", "0", "4"].map Except.ok))) =
      "Mean rainfall: 8.3 cm\nBelow count:   2\nAbove count:   1\n" := by
  exact ⟨by decide, by decide, by decide, by decide, by decide⟩

/-- Claim C10: a line spelling negative zero (`-0` or `-0.0`) parses to the
`f64` value `-0.0`, which satisfies the `f >= 0.0` comparison, so the
reader keeps it and appends `-0.0` to the measurement sequence. -/
theorem C10_negative_zero_kept :
    parseF64 "-0" = some (F64.finite true 0 0)
  ∧ parseF64 "-0.0" = some (F64.finite true 0 0)
  ∧ F64.le f64zero (F64.finite true 0 0) = true
  ∧ read_measurements [Except.ok "-0"] = [F64.finite true 0 0]
  ∧ read_measurements [Except.ok "-0.0"] = [F64.finite true 0 0] := by
  exact ⟨by decide, by decide, by decide, by decide, by decide⟩

end Rainfall
